import Mathlib

/-!
Shallow embedding of `src/collection.js` (`Parse.Collection`), a
Backbone-style collection of Parse objects: an ordered list of models plus
two lookup indexes (`_byId` for server ids, `_byCid` for client ids), with
add/remove/reset/sort/get/create operations and event notification.

The external collaborators (the Parse.Object constructor with its
`_validate` step, the query layer, the generic event mixin) are opaque in
the source; here their observable outcomes are passed in as data (see
`AddItem`) and events emitted by an operation are returned as a list.
-/

set_option autoImplicit false

namespace ParseBone

/-- A `Parse.Object` as the collection sees it: a client id (`cid`, assigned
at construction, always present), an optional server id (`id`; `none` models
a JS null/undefined id), and an attribute bag read through `get`. -/
structure PModel where
  cid : String
  id : Option String
  attrs : List (String × Int)
  deriving DecidableEq, Repr

/-- `model.get(attr)`: attribute lookup on the model's attribute bag. -/
def PModel.get (m : PModel) (attr : String) : Option Int :=
  match m.attrs.find? (fun p => p.1 = attr) with
  | some p => some p.2
  | none => none

/-- JS coerces every property key to a string, so indexing with an
`undefined` server id uses the key `"undefined"` (the source runs
`ids[id] = model` even when `id` is undefined). -/
def jsIdKey : Option String → String
  | none => "undefined"
  | some s => s

/-- JS truthiness of a server id: null/undefined and the empty string are
falsy (`if (model.id)` skips both). -/
def idTruthy : Option String → Bool
  | none => false
  | some s => decide (s ≠ "")

section Assoc

variable {β : Type}

/-- Lookup in a JS-object-like association list (`obj[k]`). -/
def alookup (k : String) : List (String × β) → Option β
  | [] => none
  | p :: rest => if p.1 = k then some p.2 else alookup k rest

/-- Key update in a JS-object-like association list (`obj[k] = v`):
replaces the binding when the key is present, otherwise appends it. -/
def ainsert (k : String) (v : β) : List (String × β) → List (String × β)
  | [] => [(k, v)]
  | p :: rest => if p.1 = k then (k, v) :: rest else p :: ainsert k v rest

/-- Key removal from a JS-object-like association list (`delete obj[k]`). -/
def aerase (k : String) : List (String × β) → List (String × β)
  | [] => []
  | p :: rest => if p.1 = k then aerase k rest else p :: aerase k rest

end Assoc

/-- The configured `comparator`: the source distinguishes a single-argument
key-extraction function (`comparator.length === 1`, sorted via underscore's
stable `sortBy`) from a two-argument comparison function (sorted via
`Array.prototype.sort`). -/
inductive Comparator where
  | byKey (f : PModel → Int)
  | byCmp (c : PModel → PModel → Int)

/-- Events observable on the collection: `add`/`remove` carry the model and
the `options.index` position, `reset` and `sync` as in the source.  Events a
member model triggers (`model.trigger('add', ...)`) reach the collection
through `_onModelEvent`, which re-broadcasts them, so they are recorded
here as collection events. -/
inductive Event where
  | add (m : PModel) (index : Int)
  | remove (m : PModel) (index : Int)
  | reset
  | sync (m : PModel)
  deriving DecidableEq, Repr

/-- The state of a `Parse.Collection`: the ordered `models`, the cached
`length` (a JS number, so an integer), the two indexes `_byId`/`_byCid`
(JS objects, embedded as string-keyed association lists), the optional
`comparator`, and `subscribed`: the cids of the members whose `'all'` event
stream the collection is currently subscribed to
(`model.on('all', this._onModelEvent, this)` — state of the external Events
mixin, tracked here so attach/detach is expressible).  The `model`
constructor and `query` options configure external collaborators (see
`AddItem`; `fetch` is not embedded). -/
structure Collection where
  models : List PModel
  length : Int
  _byId : List (String × PModel)
  _byCid : List (String × PModel)
  comparator : Option Comparator
  subscribed : List String

/-- An argument to `add`/`create`: either an existing `Parse.Object`
instance, or a raw attribute bag handed to the external `model` constructor.
That constructor and its `_validate` step live outside this file
(`Parse.Object`); `raw r` records the outcome `_prepareModel` observes:
`none` when validation fails (`model = false`), otherwise the freshly
constructed model. -/
inductive AddItem where
  | obj (m : PModel)
  | raw (r : Option PModel)
  deriving DecidableEq, Repr

/-- `_prepareModel`: a `Parse.Object` instance passes through; a raw bag
becomes the external constructor's outcome (`false` on validation failure,
modelled as `none`).  The `model.collection` back-reference it may set is
state of the external model, not of the collection. -/
def Collection._prepareModel : AddItem → Option PModel
  | .obj m => some m
  | .raw r => r

/-- Errors `add` (and the operations delegating to it) can throw. -/
inductive AddError where
  | invalidModel
  | duplicateCid
  | duplicateId
  deriving DecidableEq, Repr

/-- The error `sort` throws on a collection without a comparator. -/
inductive SortError where
  | noComparator
  deriving DecidableEq, Repr

/-- Options for `add`: the target insertion index (`options.at`, possibly
absent) and the silence flag. -/
structure AddOptions where
  «at» : Option Int
  silent : Bool
  deriving DecidableEq, Repr

/-- Options carrying only a silence flag (`remove`, `sort`, `reset`). -/
structure SilentFlag where
  silent : Bool
  deriving DecidableEq, Repr

/-- Options for `create`: `wait` (add only after a successful save),
`silent`, and whether the caller supplied a `success` callback. -/
structure CreateOptions where
  wait : Bool
  silent : Bool
  success : Bool
  deriving DecidableEq, Repr

/-- The first loop of `add`: turn each input into a model reference via
`_prepareModel` (throwing `invalidModel` on a falsy result), then reject
duplicates — a cid already seen in the batch (`cids[cid]`) or indexed
(`this._byCid[cid]`) throws `duplicateCid`; a non-null id
(`!Parse._isNullOrUndefined(id)`) already seen in the batch (`ids[id]`) or
indexed (`this._byId[id]`) throws `duplicateId`.  The accumulators hold the
keys of the loop-local `cids`/`ids` objects; `ids[id] = model` runs
unconditionally, so a null/undefined id is recorded under the coerced key
`"undefined"` (see `jsIdKey`). -/
def addValidate (c : Collection) : List AddItem → List String → List String →
    Except AddError (List PModel)
  | [], _, _ => .ok []
  | it :: rest, cids, ids =>
    match Collection._prepareModel it with
    | none => .error .invalidModel
    | some m =>
      if m.cid ∈ cids ∨ (alookup m.cid c._byCid).isSome = true then
        .error .duplicateCid
      else if m.id.isSome = true ∧
          (jsIdKey m.id ∈ ids ∨ (alookup (jsIdKey m.id) c._byId).isSome = true) then
        .error .duplicateId
      else
        match addValidate c rest (m.cid :: cids) (jsIdKey m.id :: ids) with
        | .ok ms => .ok (m :: ms)
        | .error e => .error e

/-- The second loop of `add`: subscribe to each added model's `'all'` event
stream and index it by cid, and by id when the id is truthy
(`if (model.id)`). -/
def indexModels : Collection → List PModel → Collection
  | c, [] => c
  | c, m :: rest =>
      indexModels
        { c with
          subscribed := c.subscribed ++ [m.cid]
          _byCid := ainsert m.cid m c._byCid
          _byId := if idTruthy m.id then ainsert (jsIdKey m.id) m c._byId else c._byId }
        rest

/-- The actual start position `Array.prototype.splice` uses for a given
argument and array length: a negative `start` counts from the end and
out-of-range values clamp. -/
def jsSpliceStart (i n : Int) : Nat :=
  (if i < 0 then max (n + i) 0 else min i n).toNat

/-- `Array.prototype.splice(start, 0, ...items)`: insert at `start`. -/
def jsSpliceInsert (l : List PModel) (i : Int) (ms : List PModel) : List PModel :=
  l.take (jsSpliceStart i (l.length : Int)) ++ ms ++
    l.drop (jsSpliceStart i (l.length : Int))

/-- `Array.prototype.splice(start, 1)`: delete one element at `start`. -/
def jsSpliceRemove1 (l : List PModel) (i : Int) : List PModel :=
  l.take (jsSpliceStart i (l.length : Int)) ++
    l.drop (jsSpliceStart i (l.length : Int) + 1)

/-- `Array.prototype.indexOf`: first index of the element, `-1` when
absent. -/
def jsIndexOf (m : PModel) : List PModel → Int
  | [] => -1
  | x :: rest =>
      if x = m then 0
      else
        let r := jsIndexOf m rest
        if r = -1 then -1 else r + 1

/-- The "does not sort after" ordering the configured comparator induces:
key comparison for a single-argument comparator, sign test of the returned
number for a two-argument one. -/
def Comparator.ord : Comparator → PModel → PModel → Prop
  | .byKey f, a, b => f a ≤ f b
  | .byCmp g, a, b => g a b ≤ 0

instance instDecidableRelOrd : (comp : Comparator) → DecidableRel comp.ord
  | .byKey f => fun a b => inferInstanceAs (Decidable (f a ≤ f b))
  | .byCmp g => fun a b => inferInstanceAs (Decidable (g a b ≤ 0))

/-- Re-ordering of `models` by `sort`: a single-argument comparator runs
underscore's `sortBy` (a stable sort by the extracted key), a two-argument
one runs `Array.prototype.sort` with the comparison function; both are
embedded as a stable sort over `Comparator.ord`. -/
def sortModels (comp : Comparator) (l : List PModel) : List PModel :=
  l.insertionSort comp.ord

/-- The third loop of `add`: walk the final `models` and, for every member
whose cid belongs to the batch (`cids[model.cid]`), trigger `add` with
`options.index` set to its final position. -/
def addEvents (batchCids : List String) (models : List PModel) : List Event :=
  models.enum.filterMap fun p =>
    if p.2.cid ∈ batchCids then some (.add p.2 (p.1 : Int)) else none

/-- The mutating phase of `add`, run only after the validation loop
accepted the whole batch `ms`: subscribe and index (second loop), bump
`length`, splice the new models in at `options.at` (default: the end,
`this.models.length` read before the splice), and re-sort silently when a
comparator is configured (`this.sort({silent: true})`). -/
def addCommit (c : Collection) (ms : List PModel) (options : AddOptions) : Collection :=
  let c1 := indexModels c ms
  let index : Int := match options.«at» with
    | none => (c.models.length : Int)
    | some k => k
  let c2 := { c1 with
    length := c1.length + (ms.length : Int)
    models := jsSpliceInsert c.models index ms }
  match c2.comparator with
  | some comp => { c2 with models := sortModels comp c2.models }
  | none => c2

/-- `add(models, options)`: validate and prepare the batch (first loop,
`addValidate`), commit it (`addCommit`), and finally fire an `add` event per
inserted model at its final position unless silenced (third loop,
`addEvents`).  The validation loop precedes every write to the collection,
so a thrown error (the `Except.error` result) leaves the collection exactly
as it was — there is no partially-inserted state. -/
def Collection.add (c : Collection) (items : List AddItem) (options : AddOptions) :
    Except AddError (Collection × List Event) :=
  match addValidate c items [] [] with
  | .error e => .error e
  | .ok ms =>
    .ok (addCommit c ms options,
      if options.silent then []
      else addEvents (ms.map PModel.cid) (addCommit c ms options).models)

/-- `get(id)`: `return id && this._byId[id.id || id]`.  A falsy argument
(null/undefined or the empty string) short-circuits to "not found".  For an
object argument, `id.id || id` is the object's server id when truthy,
otherwise the object itself, which JS coerces to the default property key
`"[object Object]"`. -/
inductive IdArg where
  | undef
  | str (s : String)
  | obj (m : PModel)
  deriving DecidableEq, Repr

def Collection.get (c : Collection) (id : IdArg) : Option PModel :=
  match id with
  | .undef => none
  | .str s => if s = "" then none else alookup s c._byId
  | .obj m =>
      alookup (if idTruthy m.id then jsIdKey m.id else "[object Object]") c._byId

/-- `getByCid(cid)`: `return cid && this._byCid[cid.cid || cid]`, symmetric
to `get`. -/
def Collection.getByCid (c : Collection) (cid : IdArg) : Option PModel :=
  match cid with
  | .undef => none
  | .str s => if s = "" then none else alookup s c._byCid
  | .obj m =>
      alookup (if m.cid = "" then "[object Object]" else m.cid) c._byCid

/-- `_removeReference`: unsubscribe the collection's `'all'` handler from
the model (`model.off('all', this._onModelEvent, this)`).  The
`model.collection` back-reference it may delete is external model state. -/
def Collection._removeReference (c : Collection) (m : PModel) : Collection :=
  { c with subscribed := c.subscribed.filter fun s => decide (s ≠ m.cid) }

/-- The member the `remove` loop resolves an argument to:
`this.getByCid(models[i]) || this.get(models[i])`. -/
def Collection.memberFor (c : Collection) (arg : IdArg) : Option PModel :=
  match c.getByCid arg with
  | some m => some m
  | none => c.get arg

/-- One iteration of the `remove` loop: arguments resolving to no member are
skipped; a found member is deleted from both indexes (`delete` coerces a
null/undefined id to the key `"undefined"`), spliced out of `models` at its
`indexOf` position, `length` is decremented, a `remove` event with the
pre-removal index fires unless silenced, and `_removeReference`
unsubscribes the member. -/
def Collection.removeOne (c : Collection) (arg : IdArg) (options : SilentFlag) :
    Collection × List Event :=
  match c.memberFor arg with
  | none => (c, [])
  | some m =>
      let index := jsIndexOf m c.models
      let c' : Collection :=
        { c with
          _byId := aerase (jsIdKey m.id) c._byId
          _byCid := aerase m.cid c._byCid
          models := jsSpliceRemove1 c.models index
          length := c.length - 1 }
      let evs := if options.silent then [] else [Event.remove m index]
      (c'._removeReference m, evs)

/-- `remove(models, options)`: run the loop body over each argument,
accumulating the emitted events. -/
def Collection.remove (c : Collection) (args : List IdArg) (options : SilentFlag) :
    Collection × List Event :=
  args.foldl
    (fun acc arg =>
      let r := Collection.removeOne acc.1 arg options
      (r.1, acc.2 ++ r.2))
    (c, [])

/-- `sort(options)`: throws without a comparator, otherwise re-orders
`models` (see `sortModels`) and fires `reset` unless silenced.  The check
precedes every write, so the error leaves the collection untouched. -/
def Collection.sort (c : Collection) (options : SilentFlag) :
    Except SortError (Collection × List Event) :=
  match c.comparator with
  | none => .error .noComparator
  | some comp =>
      .ok ({ c with models := sortModels comp c.models },
           if options.silent then [] else [Event.reset])

/-- `pluck(attr)`: the list of each member's value for `attr`. -/
def Collection.pluck (c : Collection) (attr : String) : List (Option Int) :=
  c.models.map fun m => m.get attr

/-- `_reset`: reinitialize `length`, `models` and both indexes (the event
subscriptions are torn down separately by `_removeReference`). -/
def Collection._reset (c : Collection) : Collection :=
  { c with length := 0, models := [], _byId := [], _byCid := [] }

/-- `reset(models, options)`: detach every current member
(`_removeReference`), reinitialize the state (`_reset`), re-add the new
items with `{silent: true}`, then fire a single `reset` event unless
silenced.  When the inner `add` throws, the JS exception propagates (the
collection was already cleared at that point); the `Except.error` result
models the exception. -/
def Collection.reset (c : Collection) (items : List AddItem) (options : SilentFlag) :
    Except AddError (Collection × List Event) :=
  let c1 := c.models.foldl Collection._removeReference c
  let c2 := c1._reset
  match c2.add items { «at» := none, silent := true } with
  | .error e => .error e
  | .ok r => .ok (r.1, if options.silent then [] else [Event.reset])

/-- The `Parse.Collection` constructor: record the configured comparator
(the `model` and `query` options configure external collaborators), start
from `_reset` state with no subscriptions, and, when initial models are
given, `reset` them with `{silent: true}` — so construction emits no
events. -/
def Collection.construct (models : Option (List AddItem))
    (comparator : Option Comparator) : Except AddError (Collection × List Event) :=
  let c0 : Collection :=
    { models := [], length := 0, _byId := [], _byCid := [],
      comparator := comparator, subscribed := [] }
  match models with
  | none => .ok (c0, [])
  | some ms => c0.reset ms { silent := true }

/-- The synchronous part of `create(attrs, options)`: prepare and validate
(returning JS `false`, here `none`, with no mutation and no event when
validation fails), add immediately unless `wait` is set, then hand the
model to its external `save`.  The result carries the created model (if
any), the collection state at the moment `save` is issued, and the events
emitted so far. -/
def Collection.create (c : Collection) (item : AddItem) (options : CreateOptions) :
    Except AddError (Option PModel × Collection × List Event) :=
  match Collection._prepareModel item with
  | none => .ok (none, c, [])
  | some m =>
      if options.wait then .ok (some m, c, [])
      else
        match c.add [AddItem.obj m] { «at» := none, silent := options.silent } with
        | .error e => .error e
        | .ok r => .ok (some m, r.1, r.2)

/-- The `options.success` continuation `create` installs on the model's
`save`: when `wait` was set the deferred add runs now, then either the
caller's own success callback fires or the model triggers `sync`, which the
collection re-broadcasts through `_onModelEvent`. -/
def Collection.createSuccess (c : Collection) (nextModel : PModel)
    (options : CreateOptions) : Except AddError (Collection × List Event) :=
  let step : Except AddError (Collection × List Event) :=
    if options.wait then
      c.add [AddItem.obj nextModel] { «at» := none, silent := options.silent }
    else .ok (c, [])
  match step with
  | .error e => .error e
  | .ok r => .ok (r.1, r.2 ++ if options.success then [] else [Event.sync nextModel])

/-- Structural well-formedness of a collection state, as established by the
constructor and preserved by every operation: the cached `length` matches
`models`, no two members share a cid, the indexes are sound (every `_byCid`
entry is a member keyed by its cid; every `_byId` entry is a member with a
truthy id keyed by it), and `_byCid` is complete. -/
abbrev WF (c : Collection) : Prop :=
  c.length = (c.models.length : Int)
  ∧ (c.models.map PModel.cid).Nodup
  ∧ (∀ p ∈ c._byCid, p.2 ∈ c.models ∧ p.1 = p.2.cid)
  ∧ (∀ p ∈ c._byId, p.2 ∈ c.models ∧ p.1 = jsIdKey p.2.id ∧ idTruthy p.2.id = true)
  ∧ (∀ m ∈ c.models, alookup m.cid c._byCid = some m)

/-- No two items of a batch (in order) carry the same non-null server id:
the in-batch part of what the duplicate-id check of `add` enforces. -/
abbrev BatchIdsOk (ms : List PModel) : Prop :=
  List.Pairwise (fun a b => b.id.isSome = true → jsIdKey b.id ≠ jsIdKey a.id) ms

/-- A comparator that actually orders models: a key extractor always does; a
two-argument comparison function must induce a transitive and total "does
not sort after" relation (`Array.prototype.sort` guarantees a sorted result
only for consistent comparison functions). -/
def Comparator.Consistent : Comparator → Prop
  | .byKey _ => True
  | .byCmp g =>
      (∀ a b c, g a b ≤ 0 → g b c ≤ 0 → g a c ≤ 0) ∧ (∀ a b, g a b ≤ 0 ∨ g b a ≤ 0)

/-- `models` is sorted according to the configured comparator. -/
abbrev SortedBy (comp : Comparator) (l : List PModel) : Prop :=
  l.Pairwise comp.ord

/-- Two items of the batch share a client id. -/
abbrev SharesCid (ms : List PModel) : Prop := ¬ (ms.map PModel.cid).Nodup

/-- Two items of the batch share a non-empty server id. -/
abbrev SharesNonemptyId (ms : List PModel) : Prop :=
  ¬ List.Pairwise (fun a b => a.id = b.id → idTruthy a.id = false) ms

/-- Some item of the batch collides with an already-indexed member: its cid
is indexed, or its non-empty server id is. -/
abbrev CollidesExisting (c : Collection) (ms : List PModel) : Prop :=
  ∃ m ∈ ms, (alookup m.cid c._byCid).isSome = true ∨
    (idTruthy m.id = true ∧ (alookup (jsIdKey m.id) c._byId).isSome = true)

section AssocLemmas

variable {β : Type}

theorem alookup_mem {k : String} {v : β} :
    ∀ {l : List (String × β)}, alookup k l = some v → (k, v) ∈ l := by
  intro l
  induction l with
  | nil => intro h; simp [alookup] at h
  | cons p rest ih =>
      obtain ⟨a, b⟩ := p
      intro h
      by_cases hk : a = k
      · subst hk
        simp [alookup] at h
        subst h
        exact List.mem_cons_self _ _
      · simp [alookup, hk] at h
        exact List.mem_cons_of_mem _ (ih h)

@[simp] theorem alookup_aerase_self (k : String) :
    ∀ (l : List (String × β)), alookup k (aerase k l) = none := by
  intro l
  induction l with
  | nil => simp [aerase, alookup]
  | cons p rest ih =>
      by_cases hk : p.1 = k
      · simpa [aerase, hk] using ih
      · simpa [aerase, alookup, hk] using ih

theorem alookup_aerase_ne {k k' : String} (hne : k' ≠ k) :
    ∀ (l : List (String × β)), alookup k' (aerase k l) = alookup k' l := by
  intro l
  induction l with
  | nil => rfl
  | cons p rest ih =>
      obtain ⟨a, b⟩ := p
      by_cases hk : a = k
      · subst hk
        have hkk : ¬ (a = k') := fun h => hne h.symm
        simp [aerase, alookup, hkk, ih]
      · by_cases hp : a = k'
        · subst hp
          simp [aerase, alookup, hk]
        · simp [aerase, alookup, hk, hp, ih]

theorem mem_aerase {k : String} {p : String × β} :
    ∀ {l : List (String × β)}, p ∈ aerase k l → p ∈ l ∧ p.1 ≠ k := by
  intro l
  induction l with
  | nil => intro h; simp [aerase] at h
  | cons q rest ih =>
      intro h
      by_cases hk : q.1 = k
      · simp only [aerase, if_pos hk] at h
        exact ⟨List.mem_cons_of_mem _ (ih h).1, (ih h).2⟩
      · simp only [aerase, if_neg hk, List.mem_cons] at h
        rcases h with h | h
        · exact ⟨h ▸ List.mem_cons_self _ _, h ▸ hk⟩
        · exact ⟨List.mem_cons_of_mem _ (ih h).1, (ih h).2⟩

@[simp] theorem alookup_ainsert_self (k : String) (v : β) :
    ∀ (l : List (String × β)), alookup k (ainsert k v l) = some v := by
  intro l
  induction l with
  | nil => simp [ainsert, alookup]
  | cons p rest ih =>
      by_cases hk : p.1 = k
      · simp [ainsert, alookup, hk]
      · simp [ainsert, alookup, hk, ih]

theorem alookup_ainsert_ne {k k' : String} (v : β) (hne : k' ≠ k) :
    ∀ (l : List (String × β)), alookup k' (ainsert k v l) = alookup k' l := by
  intro l
  induction l with
  | nil =>
      have hkk : ¬ (k = k') := fun h => hne h.symm
      simp [ainsert, alookup, hkk]
  | cons p rest ih =>
      obtain ⟨a, b⟩ := p
      by_cases hk : a = k
      · subst hk
        have hkk : ¬ (a = k') := fun h => hne h.symm
        simp [ainsert, alookup, hkk]
      · by_cases hp : a = k'
        · subst hp
          simp [ainsert, alookup, hk]
        · simp [ainsert, alookup, hk, hp, ih]

theorem mem_ainsert {k : String} {v : β} {p : String × β} :
    ∀ {l : List (String × β)}, p ∈ ainsert k v l → p = (k, v) ∨ p ∈ l := by
  intro l
  induction l with
  | nil => intro h; simp [ainsert] at h; exact Or.inl h
  | cons q rest ih =>
      intro h
      by_cases hk : q.1 = k
      · simp only [ainsert, if_pos hk, List.mem_cons] at h
        rcases h with h | h
        · exact Or.inl h
        · exact Or.inr (List.mem_cons_of_mem _ h)
      · simp only [ainsert, if_neg hk, List.mem_cons] at h
        rcases h with h | h
        · exact Or.inr (h ▸ List.mem_cons_self _ _)
        · rcases ih h with h' | h'
          · exact Or.inl h'
          · exact Or.inr (List.mem_cons_of_mem _ h')

end AssocLemmas

section IndexModelsLemmas

@[simp] theorem indexModels_models :
    ∀ (ms : List PModel) (c : Collection), (indexModels c ms).models = c.models := by
  intro ms
  induction ms with
  | nil => intro c; rfl
  | cons m rest ih => intro c; simpa [indexModels] using ih _

@[simp] theorem indexModels_length :
    ∀ (ms : List PModel) (c : Collection), (indexModels c ms).length = c.length := by
  intro ms
  induction ms with
  | nil => intro c; rfl
  | cons m rest ih => intro c; simpa [indexModels] using ih _

@[simp] theorem indexModels_comparator :
    ∀ (ms : List PModel) (c : Collection), (indexModels c ms).comparator = c.comparator := by
  intro ms
  induction ms with
  | nil => intro c; rfl
  | cons m rest ih => intro c; simpa [indexModels] using ih _

theorem indexModels_subscribed :
    ∀ (ms : List PModel) (c : Collection),
      (indexModels c ms).subscribed = c.subscribed ++ ms.map PModel.cid := by
  intro ms
  induction ms with
  | nil => intro c; simp [indexModels]
  | cons m rest ih => intro c; simp [indexModels, ih]

theorem indexModels_byCid_notmem :
    ∀ (ms : List PModel) (c : Collection) (k : String), k ∉ ms.map PModel.cid →
      alookup k (indexModels c ms)._byCid = alookup k c._byCid := by
  intro ms
  induction ms with
  | nil => intro c k _; rfl
  | cons m rest ih =>
      intro c k hk
      simp only [List.map_cons, List.mem_cons, not_or] at hk
      rw [indexModels, ih _ _ hk.2]
      exact alookup_ainsert_ne _ hk.1 _

theorem indexModels_byCid_mem :
    ∀ (ms : List PModel) (c : Collection), (ms.map PModel.cid).Nodup →
      ∀ m ∈ ms, alookup m.cid (indexModels c ms)._byCid = some m := by
  intro ms
  induction ms with
  | nil => intro c _ m hm; simp at hm
  | cons x rest ih =>
      intro c hnd m hm
      simp only [List.map_cons, List.nodup_cons] at hnd
      rcases List.mem_cons.mp hm with h | h
      · subst h
        rw [indexModels, indexModels_byCid_notmem _ _ _ hnd.1]
        simp
      · exact ih _ hnd.2 m h

theorem indexModels_byCid_sound :
    ∀ (ms : List PModel) (c : Collection) (p : String × PModel),
      p ∈ (indexModels c ms)._byCid → p ∈ c._byCid ∨ ∃ m ∈ ms, p = (m.cid, m) := by
  intro ms
  induction ms with
  | nil => intro c p hp; exact Or.inl hp
  | cons x rest ih =>
      intro c p hp
      rw [indexModels] at hp
      rcases ih _ _ hp with h | ⟨m, hm, rfl⟩
      · rcases mem_ainsert h with h' | h'
        · exact Or.inr ⟨x, List.mem_cons_self _ _, h'⟩
        · exact Or.inl h'
      · exact Or.inr ⟨m, List.mem_cons_of_mem _ hm, rfl⟩

theorem indexModels_byId_notmem :
    ∀ (ms : List PModel) (c : Collection) (k : String),
      (∀ m ∈ ms, idTruthy m.id = true → jsIdKey m.id ≠ k) →
      alookup k (indexModels c ms)._byId = alookup k c._byId := by
  intro ms
  induction ms with
  | nil => intro c k _; rfl
  | cons m rest ih =>
      intro c k hk
      rw [indexModels, ih _ _ (fun m' hm' => hk m' (List.mem_cons_of_mem _ hm'))]
      by_cases ht : idTruthy m.id
      · rw [if_pos ht]
        exact alookup_ainsert_ne _ (fun h => hk m (List.mem_cons_self _ _) ht h.symm) _
      · rw [if_neg ht]

theorem indexModels_byId_mem :
    ∀ (ms : List PModel) (c : Collection), BatchIdsOk ms →
      ∀ m ∈ ms, idTruthy m.id = true →
        alookup (jsIdKey m.id) (indexModels c ms)._byId = some m := by
  intro ms
  induction ms with
  | nil => intro c _ m hm; simp at hm
  | cons x rest ih =>
      intro c hok m hm ht
      rw [BatchIdsOk, List.pairwise_cons] at hok
      rcases List.mem_cons.mp hm with h | h
      · subst h
        rw [indexModels,
          indexModels_byId_notmem _ _ _
            (fun m' hm' ht' => hok.1 m' hm' (by
              cases hid : m'.id with
              | none => rw [hid] at ht'; simp [idTruthy] at ht'
              | some s => simp))]
        rw [if_pos ht]
        simp
      · exact ih _ hok.2 m h ht

theorem indexModels_byId_sound :
    ∀ (ms : List PModel) (c : Collection) (p : String × PModel),
      p ∈ (indexModels c ms)._byId →
      p ∈ c._byId ∨ ∃ m ∈ ms, p = (jsIdKey m.id, m) ∧ idTruthy m.id = true := by
  intro ms
  induction ms with
  | nil => intro c p hp; exact Or.inl hp
  | cons x rest ih =>
      intro c p hp
      rw [indexModels] at hp
      rcases ih _ _ hp with h | ⟨m, hm, rfl, hmt⟩
      · by_cases ht : idTruthy x.id
        · rw [if_pos ht] at h
          rcases mem_ainsert h with h' | h'
          · exact Or.inr ⟨x, List.mem_cons_self _ _, h', ht⟩
          · exact Or.inl h'
        · rw [if_neg ht] at h
          exact Or.inl h
      · exact Or.inr ⟨m, List.mem_cons_of_mem _ hm, rfl, hmt⟩

end IndexModelsLemmas

section AddValidateLemmas

/-- Inversion of the validation loop: when it accepts, the batch is the
prepared models, their cids avoid the accumulator and the cid index and are
pairwise distinct, and their non-null ids avoid the accumulator, the id
index, and one another. -/
theorem addValidate_ok_inv (c : Collection) :
    ∀ (items : List AddItem) (cids ids : List String) (ms : List PModel),
      addValidate c items cids ids = .ok ms →
      items.map Collection._prepareModel = ms.map some
      ∧ (∀ m ∈ ms, m.cid ∉ cids ∧ alookup m.cid c._byCid = none)
      ∧ (ms.map PModel.cid).Nodup
      ∧ (∀ m ∈ ms, m.id.isSome = true →
          jsIdKey m.id ∉ ids ∧ alookup (jsIdKey m.id) c._byId = none)
      ∧ BatchIdsOk ms := by
  intro items
  induction items with
  | nil =>
      intro cids ids ms h
      simp only [addValidate] at h
      cases h
      simp [BatchIdsOk]
  | cons it rest ih =>
      intro cids ids ms h
      simp only [addValidate] at h
      cases hp : Collection._prepareModel it with
      | none => rw [hp] at h; exact Except.noConfusion h
      | some m =>
          rw [hp] at h
          simp only at h
          by_cases h1 : m.cid ∈ cids ∨ (alookup m.cid c._byCid).isSome = true
          · rw [if_pos h1] at h; exact Except.noConfusion h
          · rw [if_neg h1] at h
            by_cases h2 : m.id.isSome = true ∧
                (jsIdKey m.id ∈ ids ∨ (alookup (jsIdKey m.id) c._byId).isSome = true)
            · rw [if_pos h2] at h; exact Except.noConfusion h
            · rw [if_neg h2] at h
              cases hv : addValidate c rest (m.cid :: cids) (jsIdKey m.id :: ids) with
              | error e => rw [hv] at h; exact Except.noConfusion h
              | ok ms' =>
                  rw [hv] at h
                  simp only at h
                  cases h
                  push_neg at h1 h2
                  obtain ⟨hmap, hcids, hnd, hids, hpw⟩ := ih _ _ _ hv
                  refine ⟨by simp [hp, hmap], ?_, ?_, ?_, ?_⟩
                  · intro x hx
                    rcases List.mem_cons.mp hx with rfl | hx'
                    · exact ⟨h1.1, Option.not_isSome_iff_eq_none.mp (by simp [h1.2])⟩
                    · have hc := (hcids x hx').1
                      simp only [List.mem_cons, not_or] at hc
                      exact ⟨hc.2, (hcids x hx').2⟩
                  · refine List.nodup_cons.mpr ⟨?_, hnd⟩
                    intro hmem
                    rcases List.mem_map.mp hmem with ⟨x, hx, hcid⟩
                    have hc := (hcids x hx).1
                    simp only [List.mem_cons, not_or] at hc
                    exact hc.1 hcid
                  · intro x hx hxs
                    rcases List.mem_cons.mp hx with rfl | hx'
                    · have h2' := h2 hxs
                      simp only [not_or] at h2'
                      exact ⟨h2'.1, Option.not_isSome_iff_eq_none.mp (by simp [h2'.2])⟩
                    · have hi := (hids x hx' hxs).1
                      simp only [List.mem_cons, not_or] at hi
                      exact ⟨hi.2, (hids x hx' hxs).2⟩
                  · refine List.pairwise_cons.mpr ⟨?_, hpw⟩
                    intro x hx hxs
                    have hi := (hids x hx hxs).1
                    simp only [List.mem_cons, not_or] at hi
                    exact hi.1

/-- Sufficiency for the validation loop: a fully valid batch with distinct
cids and distinct non-null ids, none colliding with the accumulators or the
indexes, is accepted verbatim. -/
theorem addValidate_ok_of (c : Collection) :
    ∀ (items : List AddItem) (ms : List PModel) (cids ids : List String),
      items.map Collection._prepareModel = ms.map some →
      (∀ m ∈ ms, m.cid ∉ cids ∧ alookup m.cid c._byCid = none) →
      (ms.map PModel.cid).Nodup →
      (∀ m ∈ ms, m.id.isSome = true →
        jsIdKey m.id ∉ ids ∧ alookup (jsIdKey m.id) c._byId = none) →
      BatchIdsOk ms →
      addValidate c items cids ids = .ok ms := by
  intro items
  induction items with
  | nil =>
      intro ms cids ids hmap _ _ _ _
      cases ms with
      | nil => rfl
      | cons m rest => simp at hmap
  | cons it rest ih =>
      intro ms cids ids hmap hcids hnd hids hpw
      cases ms with
      | nil => simp at hmap
      | cons m ms' =>
          simp only [List.map_cons, List.cons.injEq] at hmap
          have hm := hcids m (List.mem_cons_self _ _)
          have h1 : ¬ (m.cid ∈ cids ∨ (alookup m.cid c._byCid).isSome = true) := by
            simp [hm.1, hm.2]
          have h2 : ¬ (m.id.isSome = true ∧
              (jsIdKey m.id ∈ ids ∨ (alookup (jsIdKey m.id) c._byId).isSome = true)) := by
            intro hcon
            have hi := hids m (List.mem_cons_self _ _) hcon.1
            rcases hcon.2 with hmem | hlk
            · exact hi.1 hmem
            · rw [hi.2] at hlk; simp at hlk
          rw [BatchIdsOk, List.pairwise_cons] at hpw
          simp only [List.map_cons, List.nodup_cons] at hnd
          have hrec := ih ms' (m.cid :: cids) (jsIdKey m.id :: ids) hmap.2
            (by
              intro x hx
              have hx' := hcids x (List.mem_cons_of_mem _ hx)
              refine ⟨?_, hx'.2⟩
              simp only [List.mem_cons, not_or]
              refine ⟨?_, hx'.1⟩
              intro hcid
              exact hnd.1 (List.mem_map.mpr ⟨x, hx, hcid⟩))
            hnd.2
            (by
              intro x hx hxs
              have hx' := hids x (List.mem_cons_of_mem _ hx) hxs
              refine ⟨?_, hx'.2⟩
              simp only [List.mem_cons, not_or]
              exact ⟨hpw.1 x hx hxs, hx'.1⟩)
            hpw.2
          simp only [addValidate, hmap.1]
          rw [if_neg h1, if_neg h2, hrec]

/-- When every item of the batch prepares successfully, the validation loop
can only throw a duplicate error, never `invalidModel`. -/
theorem addValidate_error_kind (c : Collection) :
    ∀ (items : List AddItem) (cids ids : List String) (e : AddError),
      (∀ it ∈ items, (Collection._prepareModel it).isSome = true) →
      addValidate c items cids ids = .error e →
      e = .duplicateCid ∨ e = .duplicateId := by
  intro items
  induction items with
  | nil => intro cids ids e _ h; simp [addValidate] at h
  | cons it rest ih =>
      intro cids ids e hall h
      simp only [addValidate] at h
      cases hp : Collection._prepareModel it with
      | none =>
          have hs := hall it (List.mem_cons_self _ _)
          rw [hp] at hs; simp at hs
      | some m =>
          rw [hp] at h
          simp only at h
          by_cases h1 : m.cid ∈ cids ∨ (alookup m.cid c._byCid).isSome = true
          · rw [if_pos h1] at h
            cases h
            exact Or.inl rfl
          · rw [if_neg h1] at h
            by_cases h2 : m.id.isSome = true ∧
                (jsIdKey m.id ∈ ids ∨ (alookup (jsIdKey m.id) c._byId).isSome = true)
            · rw [if_pos h2] at h
              cases h
              exact Or.inr rfl
            · rw [if_neg h2] at h
              cases hv : addValidate c rest (m.cid :: cids) (jsIdKey m.id :: ids) with
              | error e' =>
                  rw [hv] at h
                  simp only at h
                  cases h
                  exact ih _ _ _ (fun x hx => hall x (List.mem_cons_of_mem _ hx)) hv
              | ok ms' =>
                  rw [hv] at h
                  exact Except.noConfusion h

end AddValidateLemmas

section SpliceSortLemmas

theorem take_append_drop_perm (s : Nat) (l ms : List PModel) :
    (l.take s ++ ms ++ l.drop s).Perm (ms ++ l) := by
  have h : ((l.take s ++ ms) ++ l.drop s).Perm ((ms ++ l.take s) ++ l.drop s) :=
    List.Perm.append_right _ List.perm_append_comm
  have h2 : (ms ++ l.take s) ++ l.drop s = ms ++ l := by
    rw [List.append_assoc, List.take_append_drop]
  rw [h2] at h
  exact h

theorem jsSpliceInsert_perm (l : List PModel) (i : Int) (ms : List PModel) :
    (jsSpliceInsert l i ms).Perm (ms ++ l) :=
  take_append_drop_perm _ l ms

theorem jsSpliceStart_coe (k n : Nat) :
    jsSpliceStart (k : Int) (n : Int) = min k n := by
  unfold jsSpliceStart
  rw [if_neg (by omega)]
  omega

theorem jsSpliceRemove1_coe (l : List PModel) (k : Nat) :
    jsSpliceRemove1 l (k : Int) = l.take k ++ l.drop (k + 1) := by
  unfold jsSpliceRemove1
  rw [jsSpliceStart_coe]
  by_cases hk : k ≤ l.length
  · rw [min_eq_left hk]
  · have hlen : l.length ≤ k := le_of_not_le hk
    rw [min_eq_right hlen, List.take_of_length_le (le_refl _),
      List.take_of_length_le hlen, List.drop_eq_nil_of_le (by omega),
      List.drop_eq_nil_of_le (by omega)]

theorem sortModels_perm (comp : Comparator) (l : List PModel) :
    (sortModels comp l).Perm l :=
  List.perm_insertionSort comp.ord l

theorem sortModels_sorted {comp : Comparator} (hcons : comp.Consistent)
    (l : List PModel) : SortedBy comp (sortModels comp l) := by
  cases comp with
  | byKey f =>
      have htot : IsTotal PModel (Comparator.byKey f).ord :=
        ⟨fun a b => Int.le_total (f a) (f b)⟩
      have htrans : IsTrans PModel (Comparator.byKey f).ord :=
        ⟨fun a b c hab hbc => Int.le_trans hab hbc⟩
      exact List.sorted_insertionSort (Comparator.byKey f).ord l
  | byCmp g =>
      obtain ⟨htrans, htotal⟩ := hcons
      have htot : IsTotal PModel (Comparator.byCmp g).ord := ⟨htotal⟩
      have htrans' : IsTrans PModel (Comparator.byCmp g).ord :=
        ⟨fun a b c hab hbc => htrans a b c hab hbc⟩
      exact List.sorted_insertionSort (Comparator.byCmp g).ord l

end SpliceSortLemmas

section RemovalLemmas

/-- What splicing out a member of a duplicate-free list at its `indexOf`
position does: the index is the member's position, exactly that occurrence
disappears, the length drops by one, and cid-distinctness survives. -/
theorem remove_found_spec {l : List PModel} {m : PModel} (hm : m ∈ l)
    (hnd : (l.map PModel.cid).Nodup) :
    ∃ k : Nat, jsIndexOf m l = (k : Int) ∧ l[k]? = some m ∧
      jsSpliceRemove1 l (jsIndexOf m l) = l.take k ++ l.drop (k + 1) ∧
      (jsSpliceRemove1 l (jsIndexOf m l)).length + 1 = l.length ∧
      m ∉ jsSpliceRemove1 l (jsIndexOf m l) ∧
      (∀ x, x ∈ jsSpliceRemove1 l (jsIndexOf m l) ↔ (x ∈ l ∧ x ≠ m)) ∧
      ((jsSpliceRemove1 l (jsIndexOf m l)).map PModel.cid).Nodup := by
  induction l with
  | nil => simp at hm
  | cons x rest ih =>
      simp only [List.map_cons, List.nodup_cons] at hnd
      by_cases hx : x = m
      · subst hx
        have hxmem : x ∉ rest := fun hc => hnd.1 (List.mem_map.mpr ⟨x, hc, rfl⟩)
        have hidx : jsIndexOf x (x :: rest) = ((0 : Nat) : Int) := by
          simp [jsIndexOf]
        have hsp : jsSpliceRemove1 (x :: rest) (jsIndexOf x (x :: rest)) = rest := by
          rw [hidx, jsSpliceRemove1_coe]
          simp
        refine ⟨0, hidx, by simp, ?_, ?_, ?_, ?_, ?_⟩
        · rw [hidx, jsSpliceRemove1_coe]
        · rw [hsp]; simp
        · rw [hsp]; exact hxmem
        · intro y
          rw [hsp]
          constructor
          · intro hy
            refine ⟨List.mem_cons_of_mem _ hy, ?_⟩
            intro hyx
            exact hxmem (hyx ▸ hy)
          · intro hy
            rcases List.mem_cons.mp hy.1 with h | h
            · exact absurd h hy.2
            · exact h
        · rw [hsp]; exact hnd.2
      · have hm' : m ∈ rest := by
          rcases List.mem_cons.mp hm with h | h
          · exact absurd h.symm hx
          · exact h
        obtain ⟨k, hidx, hget, hsp, hlen, hnotmem, hiff, hnd'⟩ := ih hm' hnd.2
        have hidx' : jsIndexOf m (x :: rest) = ((k + 1 : Nat) : Int) := by
          rw [jsIndexOf, if_neg hx, hidx]
          rw [if_neg (by omega)]
          push_cast
          ring
        have hRx : jsSpliceRemove1 (x :: rest) (jsIndexOf m (x :: rest)) =
            x :: (rest.take k ++ rest.drop (k + 1)) := by
          rw [hidx', jsSpliceRemove1_coe]
          simp [List.take_succ_cons, List.drop_succ_cons]
        have hR' : jsSpliceRemove1 rest (jsIndexOf m rest) =
            rest.take k ++ rest.drop (k + 1) := hsp
        refine ⟨k + 1, hidx', ?_, ?_, ?_, ?_, ?_, ?_⟩
        · rw [List.getElem?_cons_succ]; exact hget
        · rw [hidx', jsSpliceRemove1_coe]
        · rw [hRx]
          rw [hR'] at hlen
          simp only [List.length_cons, List.length_append]
          simp only [List.length_append] at hlen
          omega
        · rw [hRx]
          intro hc
          rcases List.mem_cons.mp hc with h | h
          · exact hx h.symm
          · rw [hR'] at hnotmem
            exact hnotmem h
        · intro y
          rw [hRx]
          rw [hR'] at hiff
          constructor
          · intro hy
            rcases List.mem_cons.mp hy with h | h
            · subst h
              exact ⟨List.mem_cons_self _ _, fun hc => hx hc⟩
            · have hyy := (hiff y).mp h
              exact ⟨List.mem_cons_of_mem _ hyy.1, hyy.2⟩
          · intro hy
            rcases List.mem_cons.mp hy.1 with h | h
            · subst h
              exact List.mem_cons_self _ _
            · exact List.mem_cons_of_mem _ ((hiff y).mpr ⟨h, hy.2⟩)
        · rw [hRx]
          rw [hR'] at hiff hnd'
          simp only [List.map_cons, List.nodup_cons]
          refine ⟨?_, hnd'⟩
          intro hc
          rcases List.mem_map.mp hc with ⟨y, hy, hcid⟩
          exact hnd.1 (List.mem_map.mpr ⟨y, ((hiff y).mp hy).1, hcid⟩)

theorem foldl_removeReference_models :
    ∀ (todo : List PModel) (c : Collection),
      (todo.foldl Collection._removeReference c).models = c.models := by
  intro todo
  induction todo with
  | nil => intro c; rfl
  | cons x rest ih =>
      intro c
      rw [List.foldl_cons, ih]
      rfl

theorem foldl_removeReference_length :
    ∀ (todo : List PModel) (c : Collection),
      (todo.foldl Collection._removeReference c).length = c.length := by
  intro todo
  induction todo with
  | nil => intro c; rfl
  | cons x rest ih =>
      intro c
      rw [List.foldl_cons, ih]
      rfl

theorem foldl_removeReference_byId :
    ∀ (todo : List PModel) (c : Collection),
      (todo.foldl Collection._removeReference c)._byId = c._byId := by
  intro todo
  induction todo with
  | nil => intro c; rfl
  | cons x rest ih =>
      intro c
      rw [List.foldl_cons, ih]
      rfl

theorem foldl_removeReference_byCid :
    ∀ (todo : List PModel) (c : Collection),
      (todo.foldl Collection._removeReference c)._byCid = c._byCid := by
  intro todo
  induction todo with
  | nil => intro c; rfl
  | cons x rest ih =>
      intro c
      rw [List.foldl_cons, ih]
      rfl

theorem foldl_removeReference_comparator :
    ∀ (todo : List PModel) (c : Collection),
      (todo.foldl Collection._removeReference c).comparator = c.comparator := by
  intro todo
  induction todo with
  | nil => intro c; rfl
  | cons x rest ih =>
      intro c
      rw [List.foldl_cons, ih]
      rfl

theorem mem_foldl_removeReference_subscribed :
    ∀ (todo : List PModel) (c : Collection) (s : String),
      s ∈ (todo.foldl Collection._removeReference c).subscribed ↔
        (s ∈ c.subscribed ∧ ∀ x ∈ todo, s ≠ x.cid) := by
  intro todo
  induction todo with
  | nil => intro c s; simp
  | cons x rest ih =>
      intro c s
      rw [List.foldl_cons, ih]
      simp only [Collection._removeReference, List.mem_filter, decide_eq_true_eq,
        List.forall_mem_cons]
      tauto

end RemovalLemmas

section AddLemmas

theorem addCommit_models_perm (c : Collection) (ms : List PModel) (options : AddOptions) :
    (addCommit c ms options).models.Perm (ms ++ c.models) := by
  unfold addCommit
  cases hcomp : (indexModels c ms).comparator with
  | none =>
      simp only [hcomp]
      exact jsSpliceInsert_perm _ _ _
  | some comp =>
      simp only [hcomp]
      exact (sortModels_perm _ _).trans (jsSpliceInsert_perm _ _ _)

theorem addCommit_length (c : Collection) (ms : List PModel) (options : AddOptions) :
    (addCommit c ms options).length = c.length + (ms.length : Int) := by
  unfold addCommit
  cases hcomp : (indexModels c ms).comparator with
  | none =>
      simp only [hcomp]
      rw [indexModels_length]
  | some comp =>
      simp only [hcomp]
      rw [indexModels_length]

theorem addCommit_comparator (c : Collection) (ms : List PModel) (options : AddOptions) :
    (addCommit c ms options).comparator = c.comparator := by
  unfold addCommit
  cases hcomp : (indexModels c ms).comparator with
  | none =>
      simp only [hcomp]
      rw [← hcomp, indexModels_comparator]
  | some comp =>
      simp only [hcomp]
      rw [← hcomp, indexModels_comparator]

theorem addCommit_subscribed (c : Collection) (ms : List PModel) (options : AddOptions) :
    (addCommit c ms options).subscribed = c.subscribed ++ ms.map PModel.cid := by
  unfold addCommit
  cases hcomp : (indexModels c ms).comparator with
  | none =>
      simp only [hcomp]
      rw [indexModels_subscribed]
  | some comp =>
      simp only [hcomp]
      rw [indexModels_subscribed]

theorem addCommit_byCid (c : Collection) (ms : List PModel) (options : AddOptions) :
    (addCommit c ms options)._byCid = (indexModels c ms)._byCid := by
  unfold addCommit
  cases hcomp : (indexModels c ms).comparator with
  | none => simp only [hcomp]
  | some comp => simp only [hcomp]

theorem addCommit_byId (c : Collection) (ms : List PModel) (options : AddOptions) :
    (addCommit c ms options)._byId = (indexModels c ms)._byId := by
  unfold addCommit
  cases hcomp : (indexModels c ms).comparator with
  | none => simp only [hcomp]
  | some comp => simp only [hcomp]

theorem add_ok_elim {c : Collection} {items options c' evs}
    (h : c.add items options = .ok (c', evs)) :
    ∃ ms, addValidate c items [] [] = .ok ms ∧ c' = addCommit c ms options ∧
      evs = (if options.silent then []
             else addEvents (ms.map PModel.cid) (addCommit c ms options).models) := by
  unfold Collection.add at h
  cases hv : addValidate c items [] [] with
  | error e => rw [hv] at h; exact Except.noConfusion h
  | ok ms =>
      rw [hv] at h
      simp only at h
      cases h
      exact ⟨ms, rfl, rfl, rfl⟩

theorem add_error_elim {c : Collection} {items options e}
    (h : c.add items options = .error e) : addValidate c items [] [] = .error e := by
  unfold Collection.add at h
  cases hv : addValidate c items [] [] with
  | error e' =>
      rw [hv] at h
      simp only at h
      cases h
      rfl
  | ok ms => rw [hv] at h; exact Except.noConfusion h

theorem add_ok_intro {c : Collection} {items ms} (options : AddOptions)
    (hv : addValidate c items [] [] = .ok ms) :
    c.add items options = .ok (addCommit c ms options,
      if options.silent then []
      else addEvents (ms.map PModel.cid) (addCommit c ms options).models) := by
  unfold Collection.add
  rw [hv]

/-- Members of the batch have cids disjoint from the current members' cids
whenever the validation accepted them. -/
theorem batch_cids_disjoint {c : Collection} {ms : List PModel} (hwf : WF c)
    (hcid_new : ∀ m ∈ ms, alookup m.cid c._byCid = none) :
    ∀ m ∈ ms, m.cid ∉ c.models.map PModel.cid := by
  intro m hm hmem
  rcases List.mem_map.mp hmem with ⟨mc, hmc, hcidEq⟩
  have hsome := hwf.2.2.2.2 mc hmc
  rw [hcidEq] at hsome
  rw [hcid_new m hm] at hsome
  exact Option.noConfusion hsome

theorem WF_addCommit {c : Collection} {ms : List PModel} (options : AddOptions)
    (hwf : WF c)
    (hnd : (ms.map PModel.cid).Nodup)
    (hcid_new : ∀ m ∈ ms, alookup m.cid c._byCid = none) :
    WF (addCommit c ms options) := by
  have hperm := addCommit_models_perm c ms options
  have hlen := addCommit_length c ms options
  have hbcid := addCommit_byCid c ms options
  have hbyid := addCommit_byId c ms options
  obtain ⟨hlen_c, hnd_c, hsound_cid, hsound_id, hcomp_cid⟩ := hwf
  have hdisj : ∀ m ∈ ms, m.cid ∉ c.models.map PModel.cid :=
    batch_cids_disjoint ⟨hlen_c, hnd_c, hsound_cid, hsound_id, hcomp_cid⟩ hcid_new
  have hmem_iff : ∀ x, x ∈ (addCommit c ms options).models ↔ (x ∈ ms ∨ x ∈ c.models) := by
    intro x
    rw [hperm.mem_iff, List.mem_append]
  refine ⟨?_, ?_, ?_, ?_, ?_⟩
  · rw [hlen, hperm.length_eq, List.length_append, hlen_c]
    push_cast
    ring
  · have hmap : ((addCommit c ms options).models.map PModel.cid).Perm
        ((ms ++ c.models).map PModel.cid) := hperm.map _
    rw [hmap.nodup_iff, List.map_append]
    rw [List.nodup_append]
    refine ⟨hnd, hnd_c, ?_⟩
    intro a ha hb
    rcases List.mem_map.mp ha with ⟨m, hm, rfl⟩
    exact hdisj m hm hb
  · intro p hp
    rw [hbcid] at hp
    rcases indexModels_byCid_sound ms c p hp with h | ⟨m, hm, rfl⟩
    · have hs := hsound_cid p h
      exact ⟨(hmem_iff _).mpr (Or.inr hs.1), hs.2⟩
    · exact ⟨(hmem_iff _).mpr (Or.inl hm), rfl⟩
  · intro p hp
    rw [hbyid] at hp
    rcases indexModels_byId_sound ms c p hp with h | ⟨m, hm, rfl, hmt⟩
    · have hs := hsound_id p h
      exact ⟨(hmem_iff _).mpr (Or.inr hs.1), hs.2.1, hs.2.2⟩
    · exact ⟨(hmem_iff _).mpr (Or.inl hm), rfl, hmt⟩
  · intro m hm
    rw [hbcid]
    rcases (hmem_iff m).mp hm with h | h
    · exact indexModels_byCid_mem ms c hnd m h
    · rw [indexModels_byCid_notmem ms c m.cid (fun hc => ?_)]
      · exact hcomp_cid m h
      · rcases List.mem_map.mp hc with ⟨m', hm', hcid'⟩
        have := hcid_new m' hm'
        rw [hcid'] at this
        rw [hcomp_cid m h] at this
        exact Option.noConfusion this

/-- A successful `add` preserves well-formedness. -/
theorem WF_add {c : Collection} {items options c' evs} (hwf : WF c)
    (h : c.add items options = .ok (c', evs)) : WF c' := by
  obtain ⟨ms, hv, rfl, _⟩ := add_ok_elim h
  obtain ⟨_, hcids, hnd, hids, hpw⟩ := addValidate_ok_inv c items [] [] ms hv
  exact WF_addCommit options hwf hnd (fun m hm => (hcids m hm).2)

end AddLemmas

section RemoveOpLemmas

theorem get_some_lookup {c : Collection} {arg : IdArg} {m : PModel}
    (h : c.get arg = some m) : ∃ k, alookup k c._byId = some m := by
  cases arg with
  | undef => exact Option.noConfusion h
  | str s =>
      by_cases hs : s = ""
      · rw [Collection.get, if_pos hs] at h
        exact Option.noConfusion h
      · rw [Collection.get, if_neg hs] at h
        exact ⟨s, h⟩
  | obj mm => exact ⟨_, h⟩

theorem getByCid_some_lookup {c : Collection} {arg : IdArg} {m : PModel}
    (h : c.getByCid arg = some m) : ∃ k, alookup k c._byCid = some m := by
  cases arg with
  | undef => exact Option.noConfusion h
  | str s =>
      by_cases hs : s = ""
      · rw [Collection.getByCid, if_pos hs] at h
        exact Option.noConfusion h
      · rw [Collection.getByCid, if_neg hs] at h
        exact ⟨s, h⟩
  | obj mm => exact ⟨_, h⟩

theorem memberFor_mem {c : Collection} {arg : IdArg} {m : PModel} (hwf : WF c)
    (h : c.memberFor arg = some m) : m ∈ c.models := by
  unfold Collection.memberFor at h
  cases hg : c.getByCid arg with
  | some m' =>
      rw [hg] at h
      simp only at h
      cases h
      obtain ⟨k, hk⟩ := getByCid_some_lookup hg
      exact (hwf.2.2.1 _ (alookup_mem hk)).1
  | none =>
      rw [hg] at h
      simp only at h
      obtain ⟨k, hk⟩ := get_some_lookup h
      exact (hwf.2.2.2.1 _ (alookup_mem hk)).1

theorem removeOne_none {c : Collection} {arg : IdArg} (options : SilentFlag)
    (hm : c.memberFor arg = none) : c.removeOne arg options = (c, []) := by
  unfold Collection.removeOne
  rw [hm]

theorem removeOne_found_eq {c : Collection} {arg : IdArg} {m : PModel}
    (options : SilentFlag) (hm : c.memberFor arg = some m) :
    c.removeOne arg options =
      (({ c with
          _byId := aerase (jsIdKey m.id) c._byId
          _byCid := aerase m.cid c._byCid
          models := jsSpliceRemove1 c.models (jsIndexOf m c.models)
          length := c.length - 1 } : Collection)._removeReference m,
       if options.silent then [] else [Event.remove m (jsIndexOf m c.models)]) := by
  unfold Collection.removeOne
  rw [hm]

/-- Everything the `remove` loop body does to a found member. -/
theorem removeOne_found_spec {c : Collection} {arg : IdArg} {m : PModel}
    (options : SilentFlag) (hwf : WF c) (hm : c.memberFor arg = some m) :
    ∃ k : Nat, jsIndexOf m c.models = (k : Int) ∧ c.models[k]? = some m ∧
      (c.removeOne arg options).1.models = c.models.take k ++ c.models.drop (k + 1) ∧
      m ∉ (c.removeOne arg options).1.models ∧
      (∀ x, x ∈ (c.removeOne arg options).1.models ↔ (x ∈ c.models ∧ x ≠ m)) ∧
      alookup m.cid (c.removeOne arg options).1._byCid = none ∧
      alookup (jsIdKey m.id) (c.removeOne arg options).1._byId = none ∧
      (c.removeOne arg options).1.length = c.length - 1 ∧
      m.cid ∉ (c.removeOne arg options).1.subscribed ∧
      (c.removeOne arg options).1.comparator = c.comparator ∧
      (c.removeOne arg options).2 =
        (if options.silent then [] else [Event.remove m (k : Int)]) ∧
      WF (c.removeOne arg options).1 := by
  have hmem : m ∈ c.models := memberFor_mem hwf hm
  obtain ⟨hlen_c, hnd_c, hsound_cid, hsound_id, hcomp_cid⟩ := hwf
  obtain ⟨k, hidx, hget, hsp, hlenR, hnotmem, hiff, hndR⟩ := remove_found_spec hmem hnd_c
  rw [removeOne_found_eq options hm]
  simp only [Collection._removeReference]
  refine ⟨k, hidx, hget, ?_, ?_, ?_, ?_, ?_, ?_, ?_, ?_, ?_, ?_⟩
  · exact hsp
  · exact hnotmem
  · exact hiff
  · exact alookup_aerase_self _ _
  · exact alookup_aerase_self _ _
  · trivial
  · intro hc
    rcases List.mem_filter.mp hc with ⟨_, hdec⟩
    rw [decide_eq_true_eq] at hdec
    exact hdec rfl
  · trivial
  · rw [hidx]
  · refine ⟨?_, hndR, ?_, ?_, ?_⟩
    · dsimp only
      omega
    · intro p hp
      obtain ⟨hpmem, hpne⟩ := mem_aerase hp
      have hs := hsound_cid p hpmem
      have hp2 : p.2 ≠ m := by
        intro hc
        exact hpne (hs.2.trans (by rw [hc]))
      exact ⟨(hiff p.2).mpr ⟨hs.1, hp2⟩, hs.2⟩
    · intro p hp
      obtain ⟨hpmem, hpne⟩ := mem_aerase hp
      have hs := hsound_id p hpmem
      have hp2 : p.2 ≠ m := by
        intro hc
        exact hpne (hs.2.1.trans (by rw [hc]))
      exact ⟨(hiff p.2).mpr ⟨hs.1, hp2⟩, hs.2.1, hs.2.2⟩
    · intro m' hm'
      obtain ⟨hm'mem, hm'ne⟩ := (hiff m').mp hm'
      have hcid_ne : m'.cid ≠ m.cid := by
        intro hc
        exact hm'ne (List.inj_on_of_nodup_map hnd_c hm'mem hmem hc)
      rw [alookup_aerase_ne hcid_ne]
      exact hcomp_cid m' hm'mem

/-- One `remove` iteration preserves well-formedness. -/
theorem WF_removeOne {c : Collection} (arg : IdArg) (options : SilentFlag)
    (hwf : WF c) : WF (c.removeOne arg options).1 := by
  cases hm : c.memberFor arg with
  | none => rw [removeOne_none options hm]; exact hwf
  | some m =>
      obtain ⟨k, h⟩ := removeOne_found_spec options hwf hm
      exact h.2.2.2.2.2.2.2.2.2.2.2

/-- `remove` (the whole loop) preserves well-formedness. -/
theorem WF_remove_fold {args : List IdArg} {options : SilentFlag} :
    ∀ (acc : Collection × List Event), WF acc.1 →
      WF (args.foldl
        (fun acc arg =>
          let r := Collection.removeOne acc.1 arg options
          (r.1, acc.2 ++ r.2)) acc).1 := by
  induction args with
  | nil => intro acc h; exact h
  | cons a rest ih =>
      intro acc h
      rw [List.foldl_cons]
      exact ih _ (WF_removeOne a options h)

theorem WF_remove {c : Collection} (args : List IdArg) (options : SilentFlag)
    (hwf : WF c) : WF (c.remove args options).1 :=
  WF_remove_fold (c, []) hwf

end RemoveOpLemmas

section SortResetLemmas

theorem idTruthy_elim {o : Option String} (h : idTruthy o = true) :
    ∃ s, o = some s ∧ s ≠ "" := by
  cases o with
  | none => simp [idTruthy] at h
  | some s =>
      rw [idTruthy, decide_eq_true_eq] at h
      exact ⟨s, rfl, h⟩

theorem sort_none {c : Collection} (options : SilentFlag) (h : c.comparator = none) :
    c.sort options = .error .noComparator := by
  unfold Collection.sort
  rw [h]

theorem sort_some {c : Collection} {comp : Comparator} (options : SilentFlag)
    (h : c.comparator = some comp) :
    c.sort options = .ok ({ c with models := sortModels comp c.models },
      if options.silent then [] else [Event.reset]) := by
  unfold Collection.sort
  rw [h]

/-- Any state whose `models` is a permutation of a well-formed state's, with
the same cached length, indexes untouched, stays well-formed. -/
theorem WF_of_perm {c c2 : Collection} (hwf : WF c)
    (hperm : c2.models.Perm c.models) (hlen : c2.length = c.length)
    (hid : c2._byId = c._byId) (hcid : c2._byCid = c._byCid) : WF c2 := by
  obtain ⟨h1, h2, h3, h4, h5⟩ := hwf
  refine ⟨?_, ?_, ?_, ?_, ?_⟩
  · rw [hlen, h1, hperm.length_eq]
  · exact ((hperm.map _).nodup_iff).mpr h2
  · intro p hp
    rw [hcid] at hp
    have hs := h3 p hp
    exact ⟨hperm.mem_iff.mpr hs.1, hs.2⟩
  · intro p hp
    rw [hid] at hp
    have hs := h4 p hp
    exact ⟨hperm.mem_iff.mpr hs.1, hs.2⟩
  · intro m hm
    rw [hcid]
    exact h5 m (hperm.mem_iff.mp hm)

theorem WF_sort {c : Collection} {options : SilentFlag} {c' : Collection}
    {evs : List Event} (hwf : WF c) (h : c.sort options = .ok (c', evs)) :
    WF c' := by
  cases hcomp : c.comparator with
  | none => rw [sort_none options hcomp] at h; exact Except.noConfusion h
  | some comp =>
      rw [sort_some options hcomp] at h
      cases h
      exact WF_of_perm hwf (sortModels_perm comp c.models) rfl rfl rfl

theorem WF_cleared (c : Collection) : WF c._reset := by
  unfold Collection._reset
  refine ⟨by simp, by simp, ?_, ?_, ?_⟩
  · intro p hp; simp at hp
  · intro p hp; simp at hp
  · intro m hm; simp at hm

theorem reset_eq (c : Collection) (items : List AddItem) (options : SilentFlag) :
    c.reset items options =
      match ((c.models.foldl Collection._removeReference c)._reset).add items
          { «at» := none, silent := true } with
      | .error e => .error e
      | .ok r => .ok (r.1, if options.silent then [] else [Event.reset]) := rfl

theorem construct_some_eq (ms : List AddItem) (cmp : Option Comparator) :
    Collection.construct (some ms) cmp =
      (⟨[], 0, [], [], cmp, []⟩ : Collection).reset ms ⟨true⟩ := rfl

theorem construct_none_eq (cmp : Option Comparator) :
    Collection.construct none cmp = .ok (⟨[], 0, [], [], cmp, []⟩, []) := rfl

theorem reset_cleared_byCid (c : Collection) :
    ((c.models.foldl Collection._removeReference c)._reset)._byCid = [] := rfl

theorem reset_cleared_byId (c : Collection) :
    ((c.models.foldl Collection._removeReference c)._reset)._byId = [] := rfl

theorem reset_cleared_models (c : Collection) :
    ((c.models.foldl Collection._removeReference c)._reset).models = [] := rfl

theorem reset_cleared_comparator (c : Collection) :
    ((c.models.foldl Collection._removeReference c)._reset).comparator =
      c.comparator := by
  unfold Collection._reset
  exact foldl_removeReference_comparator c.models c

/-- Successful path of `reset`: detach, clear, silent re-add, one `reset`
event unless silenced. -/
theorem reset_ok {c : Collection} {items : List AddItem} {ms : List PModel}
    (options : SilentFlag)
    (hprep : items.map Collection._prepareModel = ms.map some)
    (hnd : (ms.map PModel.cid).Nodup)
    (hpw : BatchIdsOk ms) :
    c.reset items options =
      .ok (addCommit ((c.models.foldl Collection._removeReference c)._reset) ms
            { «at» := none, silent := true },
           if options.silent then [] else [Event.reset]) := by
  rw [reset_eq]
  have hv : addValidate ((c.models.foldl Collection._removeReference c)._reset)
      items [] [] = .ok ms := by
    refine addValidate_ok_of _ items ms [] [] hprep ?_ hnd ?_ hpw
    · intro m hm
      exact ⟨List.not_mem_nil _, by rw [reset_cleared_byCid]; rfl⟩
    · intro m hm hs
      exact ⟨List.not_mem_nil _, by rw [reset_cleared_byId]; rfl⟩
  rw [add_ok_intro { «at» := none, silent := true } hv]

/-- A successful `reset` yields a well-formed state. -/
theorem WF_reset {c : Collection} {items options c' evs}
    (h : c.reset items options = .ok (c', evs)) : WF c' := by
  rw [reset_eq] at h
  cases hadd : ((c.models.foldl Collection._removeReference c)._reset).add items
      { «at» := none, silent := true } with
  | error e => rw [hadd] at h; exact Except.noConfusion h
  | ok r =>
      rw [hadd] at h
      simp only at h
      cases h
      exact WF_add (WF_cleared _) (by rw [hadd])

theorem byId_lookup_none_of_no_id {c : Collection} {s : String} (hwf : WF c)
    (habs : ∀ mm ∈ c.models, mm.id ≠ some s) : alookup s c._byId = none := by
  cases hl : alookup s c._byId with
  | none => rfl
  | some v =>
      have hv := hwf.2.2.2.1 (s, v) (alookup_mem hl)
      obtain ⟨s', hid, hne⟩ := idTruthy_elim hv.2.2
      rw [hid] at hv
      have : s' = s := hv.2.1.symm
      subst this
      exact absurd hid (habs v hv.1)

theorem byCid_lookup_none_of_no_cid {c : Collection} {s : String} (hwf : WF c)
    (habs : ∀ mm ∈ c.models, mm.cid ≠ s) : alookup s c._byCid = none := by
  cases hl : alookup s c._byCid with
  | none => rfl
  | some v =>
      have hv := hwf.2.2.1 (s, v) (alookup_mem hl)
      exact absurd hv.2.symm (habs v hv.1)

end SortResetLemmas

section BridgeLemmas

theorem remove_singleton (c : Collection) (arg : IdArg) (options : SilentFlag) :
    c.remove [arg] options = c.removeOne arg options := by
  unfold Collection.remove
  rw [List.foldl_cons, List.foldl_nil]
  dsimp only
  rw [List.nil_append]

theorem addCommit_models_some {c : Collection} {comp : Comparator}
    (ms : List PModel) (options : AddOptions) (hcomp : c.comparator = some comp) :
    (addCommit c ms options).models = sortModels comp
      (jsSpliceInsert c.models
        (match options.«at» with
         | none => (c.models.length : Int)
         | some k => k) ms) := by
  unfold addCommit
  have h2 : (indexModels c ms).comparator = some comp := by
    rw [indexModels_comparator, hcomp]
  simp only [h2]

/-- With every item valid and no item carrying a server id, the validation
loop can only throw `duplicateCid`. -/
theorem addValidate_noid_error (c : Collection) :
    ∀ (items : List AddItem) (ms : List PModel) (cids ids : List String)
      (e : AddError),
      items.map Collection._prepareModel = ms.map some →
      (∀ m ∈ ms, m.id = none) →
      addValidate c items cids ids = .error e → e = .duplicateCid := by
  intro items
  induction items with
  | nil =>
      intro ms cids ids e _ _ h
      simp [addValidate] at h
  | cons it rest ih =>
      intro ms cids ids e hmap hnoid h
      cases ms with
      | nil => simp at hmap
      | cons m ms' =>
          simp only [List.map_cons, List.cons.injEq] at hmap
          simp only [addValidate] at h
          rw [hmap.1] at h
          simp only at h
          by_cases h1 : m.cid ∈ cids ∨ (alookup m.cid c._byCid).isSome = true
          · rw [if_pos h1] at h
            cases h
            rfl
          · rw [if_neg h1] at h
            have h2 : ¬ (m.id.isSome = true ∧
                (jsIdKey m.id ∈ ids ∨ (alookup (jsIdKey m.id) c._byId).isSome = true)) := by
              intro hcon
              rw [hnoid m (List.mem_cons_self _ _)] at hcon
              simp at hcon
            rw [if_neg h2] at h
            cases hv : addValidate c rest (m.cid :: cids) (jsIdKey m.id :: ids) with
            | error e' =>
                rw [hv] at h
                simp only at h
                cases h
                exact ih ms' _ _ _ hmap.2
                  (fun x hx => hnoid x (List.mem_cons_of_mem _ hx)) hv
            | ok ms'' => rw [hv] at h; exact Except.noConfusion h

/-- The full successful-`reset` characterization that several specification
points rely on: the result and the single `reset` event, the new state's
contents, indexes, subscriptions and well-formedness. -/
theorem reset_spec {c : Collection} {items : List AddItem} {ms : List PModel}
    (options : SilentFlag)
    (hprep : items.map Collection._prepareModel = ms.map some)
    (hnd : (ms.map PModel.cid).Nodup)
    (hpw : BatchIdsOk ms) :
    ∃ c', c.reset items options =
        .ok (c', if options.silent then [] else [Event.reset])
      ∧ c'.models.Perm ms
      ∧ c'.length = (ms.length : Int)
      ∧ (∀ s, s ∈ c'.subscribed ↔
          ((s ∈ c.subscribed ∧ ∀ x ∈ c.models, s ≠ x.cid) ∨ s ∈ ms.map PModel.cid))
      ∧ (∀ m ∈ ms, alookup m.cid c'._byCid = some m)
      ∧ (∀ m ∈ ms, idTruthy m.id = true → alookup (jsIdKey m.id) c'._byId = some m)
      ∧ (∀ m ∈ ms, idTruthy m.id = true → c'.get (.str (jsIdKey m.id)) = some m)
      ∧ WF c' := by
  refine ⟨_, reset_ok options hprep hnd hpw, ?_, ?_, ?_, ?_, ?_, ?_, ?_⟩
  · have hp := addCommit_models_perm
      ((c.models.foldl Collection._removeReference c)._reset) ms { «at» := none, silent := true }
    rw [reset_cleared_models, List.append_nil] at hp
    exact hp
  · rw [addCommit_length]
    have h0 : ((c.models.foldl Collection._removeReference c)._reset).length = 0 := rfl
    rw [h0, zero_add]
  · intro s
    rw [addCommit_subscribed, List.mem_append]
    have hsub : ((c.models.foldl Collection._removeReference c)._reset).subscribed =
        (c.models.foldl Collection._removeReference c).subscribed := rfl
    rw [hsub, mem_foldl_removeReference_subscribed]
  · intro m hm
    rw [addCommit_byCid]
    exact indexModels_byCid_mem ms _ hnd m hm
  · intro m hm ht
    rw [addCommit_byId]
    exact indexModels_byId_mem ms _ hpw m hm ht
  · intro m hm ht
    obtain ⟨s, hsid, hne⟩ := idTruthy_elim ht
    have hkey : jsIdKey m.id ≠ "" := by rw [hsid]; exact hne
    show Collection.get _ (.str (jsIdKey m.id)) = some m
    rw [Collection.get]
    rw [if_neg hkey, addCommit_byId]
    exact indexModels_byId_mem ms _ hpw m hm ht
  · refine WF_addCommit _ (WF_cleared _) hnd ?_
    intro m hm
    rw [reset_cleared_byCid]
    rfl

end BridgeLemmas

section Claims

/-- Claim C1: for every call to `add` whose (validly prepared) inputs
contain two items sharing a client id, or sharing a non-empty server id, or
colliding with an already-indexed member, `add` signals a duplicate error
(`duplicateCid` or `duplicateId`).  No partial insertion can occur: the
validation loop runs before any write to the collection, so the embedded
`add` produces the error without any successor state — mirroring the source,
where the `throw` happens before `length`, `models` or the indexes are
touched. -/
theorem C1_add_duplicate_fails (c : Collection) (items : List AddItem)
    (ms : List PModel) (options : AddOptions)
    (hprep : items.map Collection._prepareModel = ms.map some)
    (hdup : SharesCid ms ∨ SharesNonemptyId ms ∨ CollidesExisting c ms) :
    c.add items options = .error .duplicateCid ∨
      c.add items options = .error .duplicateId := by
  have hall : ∀ it ∈ items, (Collection._prepareModel it).isSome = true := by
    intro it hit
    have hmm : Collection._prepareModel it ∈ items.map Collection._prepareModel :=
      List.mem_map.mpr ⟨it, hit, rfl⟩
    rw [hprep] at hmm
    rcases List.mem_map.mp hmm with ⟨m, _, hm⟩
    rw [← hm]
    rfl
  cases hv : addValidate c items [] [] with
  | ok ms' =>
      exfalso
      obtain ⟨hmap, hcids, hnd, hids, hpw⟩ := addValidate_ok_inv c items [] [] ms' hv
      have hms : ms = ms' := by
        have hss : ms.map some = ms'.map some := hprep.symm.trans hmap
        exact List.map_injective_iff.mpr (fun a b h => Option.some.inj h) hss
      subst hms
      rcases hdup with h | h | h
      · exact h hnd
      · apply h
        refine hpw.imp ?_
        intro a b hab hideq
        by_contra htr
        rw [Bool.not_eq_false] at htr
        obtain ⟨s, hs, hne⟩ := idTruthy_elim htr
        have hbs : b.id.isSome = true := by rw [← hideq, hs]; rfl
        exact hab hbs (by rw [hideq])
      · obtain ⟨m, hm, hcol⟩ := h
        rcases hcol with hcol | hcol
        · rw [(hcids m hm).2] at hcol
          simp at hcol
        · obtain ⟨htr, hlk⟩ := hcol
          have hsome : m.id.isSome = true := by
            obtain ⟨s, hs, _⟩ := idTruthy_elim htr
            rw [hs]
            rfl
          rw [(hids m hm hsome).2] at hlk
          simp at hlk
  | error e =>
      have hkind := addValidate_error_kind c items [] [] e hall hv
      have hadd : c.add items options = .error e := by
        unfold Collection.add
        rw [hv]
      rcases hkind with rfl | rfl
      · exact Or.inl hadd
      · exact Or.inr hadd

theorem C1_add_duplicate_fails_witness :
    (⟨[], 0, [], [], none, []⟩ : Collection).add
        [AddItem.obj ⟨"A", none, []⟩, AddItem.obj ⟨"A", none, []⟩] ⟨none, false⟩
        = .error .duplicateCid ∨
      (⟨[], 0, [], [], none, []⟩ : Collection).add
        [AddItem.obj ⟨"A", none, []⟩, AddItem.obj ⟨"A", none, []⟩] ⟨none, false⟩
        = .error .duplicateId :=
  C1_add_duplicate_fails _ _ [⟨"A", none, []⟩, ⟨"A", none, []⟩] _ rfl
    (Or.inl (by decide))

/-- Claim C2: after every mutating operation (`add`, `remove`, `reset`,
`sort`) completes on a well-formed collection, the cached `length` field
equals the number of elements in `models`. -/
theorem C2_length_models (c : Collection) (hwf : WF c) :
    (∀ items options c' evs, c.add items options = .ok (c', evs) →
        c'.length = (c'.models.length : Int))
    ∧ (∀ args options,
        (c.remove args options).1.length = ((c.remove args options).1.models.length : Int))
    ∧ (∀ items options c' evs, c.reset items options = .ok (c', evs) →
        c'.length = (c'.models.length : Int))
    ∧ (∀ options c' evs, c.sort options = .ok (c', evs) →
        c'.length = (c'.models.length : Int)) := by
  refine ⟨?_, ?_, ?_, ?_⟩
  · intro items options c' evs h
    exact (WF_add hwf h).1
  · intro args options
    exact (WF_remove args options hwf).1
  · intro items options c' evs h
    exact (WF_reset h).1
  · intro options c' evs h
    exact (WF_sort hwf h).1

theorem C2_length_models_witness :
    ((⟨[], 0, [], [], none, []⟩ : Collection).remove [IdArg.str "x"] ⟨false⟩).1.length
      = (((⟨[], 0, [], [], none, []⟩ : Collection).remove
            [IdArg.str "x"] ⟨false⟩).1.models.length : Int) :=
  (C2_length_models _ (by decide)).2.1 [IdArg.str "x"] ⟨false⟩

/-- Claim C3: if a (consistent) comparator is configured, then after every
successful `add` and every successful explicit `sort` the `models` sequence
is sorted according to it; in particular, with the single-argument
comparator extracting the `rank` attribute, adding items with ranks
`[3, 1, 2]` yields `pluck "rank" = [1, 2, 3]`. -/
theorem C3_comparator_sorted (c : Collection) (comp : Comparator)
    (hcomp : c.comparator = some comp) (hcons : comp.Consistent) :
    (∀ items options c' evs, c.add items options = .ok (c', evs) →
        SortedBy comp c'.models)
    ∧ (∀ options c' evs, c.sort options = .ok (c', evs) → SortedBy comp c'.models)
    ∧ ((Except.toOption
        ((⟨[], 0, [], [], some (Comparator.byKey (fun m => (m.get "rank").getD 0)), []⟩ :
          Collection).add
          [AddItem.obj ⟨"a", none, [("rank", 3)]⟩,
           AddItem.obj ⟨"b", none, [("rank", 1)]⟩,
           AddItem.obj ⟨"c", none, [("rank", 2)]⟩] ⟨none, false⟩)).map
        (fun r => r.1.pluck "rank")
        = some [some 1, some 2, some 3]) := by
  refine ⟨?_, ?_, by decide⟩
  · intro items options c' evs h
    obtain ⟨ms, hv, rfl, hevs⟩ := add_ok_elim h
    rw [addCommit_models_some ms options hcomp]
    exact sortModels_sorted hcons _
  · intro options c' evs h
    rw [sort_some options hcomp] at h
    cases h
    exact sortModels_sorted hcons _

theorem C3_comparator_sorted_witness :
    (Except.toOption
      ((⟨[], 0, [], [], some (Comparator.byKey (fun m => (m.get "rank").getD 0)), []⟩ :
        Collection).add
        [AddItem.obj ⟨"a", none, [("rank", 3)]⟩,
         AddItem.obj ⟨"b", none, [("rank", 1)]⟩,
         AddItem.obj ⟨"c", none, [("rank", 2)]⟩] ⟨none, false⟩)).map
      (fun r => r.1.pluck "rank")
      = some [some 1, some 2, some 3] :=
  (C3_comparator_sorted
    ⟨[], 0, [], [], some (Comparator.byKey (fun m => (m.get "rank").getD 0)), []⟩
    (Comparator.byKey (fun m => (m.get "rank").getD 0)) rfl (by exact trivial)).2.2

/-- Claim C4: `reset items` detaches every current member (its cid leaves
the subscription set, unless re-added), reinitializes
`models`/`length`/`_byId`/`_byCid`, adds the new items silently, and emits
exactly one `reset` event — and no `add` events — unless silenced;
afterwards `get` on a new member's (truthy) server id returns that member. -/
theorem C4_reset_spec (c : Collection) (items : List AddItem) (ms : List PModel)
    (options : SilentFlag)
    (hprep : items.map Collection._prepareModel = ms.map some)
    (hnd : (ms.map PModel.cid).Nodup)
    (hpw : BatchIdsOk ms) :
    ∃ c', c.reset items options =
        .ok (c', if options.silent then [] else [Event.reset])
      ∧ c'.models.Perm ms
      ∧ c'.length = (ms.length : Int)
      ∧ (∀ s, s ∈ c'.subscribed ↔
          ((s ∈ c.subscribed ∧ ∀ x ∈ c.models, s ≠ x.cid) ∨ s ∈ ms.map PModel.cid))
      ∧ (∀ m ∈ ms, idTruthy m.id = true → c'.get (.str (jsIdKey m.id)) = some m)
      ∧ WF c' := by
  obtain ⟨c', heq, hperm, hlen, hsubs, hbcid, hbyid, hget, hwf⟩ :=
    reset_spec options hprep hnd hpw
  exact ⟨c', heq, hperm, hlen, hsubs, hget, hwf⟩

theorem C4_reset_spec_witness :
    ∃ c', (⟨[], 0, [], [], none, []⟩ : Collection).reset
        [AddItem.obj ⟨"m1", some "i1", []⟩, AddItem.obj ⟨"m2", some "i2", []⟩]
        ⟨false⟩ = .ok (c', [Event.reset])
      ∧ c'.get (.str "i1") = some ⟨"m1", some "i1", []⟩ := by
  obtain ⟨c', heq, hperm, hlen, hsubs, hget, hwf⟩ :=
    C4_reset_spec ⟨[], 0, [], [], none, []⟩
      [AddItem.obj ⟨"m1", some "i1", []⟩, AddItem.obj ⟨"m2", some "i2", []⟩]
      [⟨"m1", some "i1", []⟩, ⟨"m2", some "i2", []⟩] ⟨false⟩ rfl (by decide) (by decide)
  exact ⟨c', heq, hget ⟨"m1", some "i1", []⟩ (by decide) (by decide)⟩

/-- Claim C5: the duplicate-server-id check in `add` only applies to
non-null ids.  With every item valid and lacking a server id, `add` can
never signal a duplicate-id error (only a duplicate-cid one), and when the
client ids are additionally distinct and not yet indexed the whole batch is
accepted.  The statement quantifies over an arbitrary prior state `c`, so it
covers both the one-batch and the across-batches case. -/
theorem C5_unsaved_no_dup_id (c : Collection) (items : List AddItem)
    (ms : List PModel) (options : AddOptions)
    (hprep : items.map Collection._prepareModel = ms.map some)
    (hnoid : ∀ m ∈ ms, m.id = none) :
    (∀ e, c.add items options = .error e → e = .duplicateCid)
    ∧ ((ms.map PModel.cid).Nodup →
        (∀ m ∈ ms, alookup m.cid c._byCid = none) →
        ∃ c' evs, c.add items options = .ok (c', evs)) := by
  constructor
  · intro e h
    exact addValidate_noid_error c items ms [] [] e hprep hnoid (add_error_elim h)
  · intro hnd hnew
    have hpw : BatchIdsOk ms := by
      refine List.pairwise_of_forall_mem_list ?_
      intro a ha b hb hbs
      rw [hnoid b hb] at hbs
      exact absurd hbs (by simp)
    have hv : addValidate c items [] [] = .ok ms :=
      addValidate_ok_of c items ms [] [] hprep
        (fun m hm => ⟨List.not_mem_nil _, hnew m hm⟩) hnd
        (fun m hm hs => by rw [hnoid m hm] at hs; exact absurd hs (by simp))
        hpw
    exact ⟨_, _, add_ok_intro options hv⟩

theorem C5_unsaved_no_dup_id_witness :
    ∃ c' evs, (⟨[], 0, [], [], none, []⟩ : Collection).add
        [AddItem.obj ⟨"A", none, []⟩, AddItem.obj ⟨"B", none, []⟩] ⟨none, false⟩
        = .ok (c', evs) :=
  (C5_unsaved_no_dup_id ⟨[], 0, [], [], none, []⟩
      [AddItem.obj ⟨"A", none, []⟩, AddItem.obj ⟨"B", none, []⟩]
      [⟨"A", none, []⟩, ⟨"B", none, []⟩] ⟨none, false⟩ rfl
      (by decide)).2 (by decide) (fun m _ => rfl)

/-- Claim C6: `get` returns `undefined` (here `none`) — and never signals an
error, being a total function of the embedding exactly as the source's
single lookup expression — whenever the identifier argument is absent
(null/undefined), empty, or no member of a well-formed collection carries it
as server id; `getByCid` behaves symmetrically for client ids. -/
theorem C6_get_absent (c : Collection) (hwf : WF c) :
    (c.get .undef = none)
    ∧ (c.get (.str "") = none)
    ∧ (∀ s : String, (∀ mm ∈ c.models, mm.id ≠ some s) → c.get (.str s) = none)
    ∧ (c.getByCid .undef = none)
    ∧ (c.getByCid (.str "") = none)
    ∧ (∀ s : String, (∀ mm ∈ c.models, mm.cid ≠ s) → c.getByCid (.str s) = none) := by
  refine ⟨rfl, ?_, ?_, rfl, ?_, ?_⟩
  · rw [Collection.get, if_pos rfl]
  · intro s habs
    by_cases hs : s = ""
    · rw [Collection.get, if_pos hs]
    · rw [Collection.get, if_neg hs]
      exact byId_lookup_none_of_no_id hwf habs
  · rw [Collection.getByCid, if_pos rfl]
  · intro s habs
    by_cases hs : s = ""
    · rw [Collection.getByCid, if_pos hs]
    · rw [Collection.getByCid, if_neg hs]
      exact byCid_lookup_none_of_no_cid hwf habs

theorem C6_get_absent_witness :
    ((⟨[⟨"B", some "s1", []⟩], 1, [("s1", ⟨"B", some "s1", []⟩)],
        [("B", ⟨"B", some "s1", []⟩)], none, ["B"]⟩ : Collection).get
      (.str "zz") = none)
    ∧ ((⟨[⟨"B", some "s1", []⟩], 1, [("s1", ⟨"B", some "s1", []⟩)],
        [("B", ⟨"B", some "s1", []⟩)], none, ["B"]⟩ : Collection).getByCid
      .undef = none) :=
  ⟨(C6_get_absent _ (by decide)).2.2.1 "zz" (by decide),
   (C6_get_absent _ (by decide)).2.2.2.1⟩

/-- Claim C7: `remove` silently skips an argument identifying no current
member (no error — the state and event list are returned unchanged), and for
a found member removes it from `_byId` and `_byCid`, removes it from
`models`, decrements `length`, unsubscribes its events, and — unless
silenced — emits a `remove` event whose index is the member's position
before removal. -/
theorem C7_remove_spec (c : Collection) (hwf : WF c) (arg : IdArg)
    (options : SilentFlag) :
    (c.memberFor arg = none → c.remove [arg] options = (c, []))
    ∧ (∀ m, c.memberFor arg = some m →
        ∃ k : Nat, jsIndexOf m c.models = (k : Int) ∧ c.models[k]? = some m ∧
          alookup m.cid (c.remove [arg] options).1._byCid = none ∧
          alookup (jsIdKey m.id) (c.remove [arg] options).1._byId = none ∧
          m ∉ (c.remove [arg] options).1.models ∧
          (c.remove [arg] options).1.length = c.length - 1 ∧
          ((c.remove [arg] options).1.models.length : Int)
            = (c.models.length : Int) - 1 ∧
          m.cid ∉ (c.remove [arg] options).1.subscribed ∧
          (c.remove [arg] options).2 =
            (if options.silent then [] else [Event.remove m (k : Int)])) := by
  constructor
  · intro hnone
    rw [remove_singleton]
    exact removeOne_none options hnone
  · intro m hm
    obtain ⟨k, hidx, hget, hmodels, hnotmem, hiff, hbcid, hbyid, hlen, hsub,
      hcomp, hevs, hwf'⟩ := removeOne_found_spec options hwf hm
    refine ⟨k, hidx, hget, ?_, ?_, ?_, ?_, ?_, ?_, ?_⟩
    all_goals rw [remove_singleton]
    · exact hbcid
    · exact hbyid
    · exact hnotmem
    · exact hlen
    · have h1 := hwf'.1
      rw [hlen] at h1
      have h2 := hwf.1
      omega
    · exact hsub
    · exact hevs

theorem C7_remove_spec_witness :
    (⟨[⟨"B", some "s1", []⟩], 1, [("s1", ⟨"B", some "s1", []⟩)],
        [("B", ⟨"B", some "s1", []⟩)], none, ["B"]⟩ : Collection).remove
      [IdArg.str "zz"] ⟨false⟩ =
      (⟨[⟨"B", some "s1", []⟩], 1, [("s1", ⟨"B", some "s1", []⟩)],
        [("B", ⟨"B", some "s1", []⟩)], none, ["B"]⟩, []) :=
  (C7_remove_spec _ (by decide) (IdArg.str "zz") ⟨false⟩).1 (by decide)

/-- Claim C8: `create` with `wait` does not add the new model before the
save succeeds — the synchronous part returns the collection unchanged with
no events, and the add runs in the save-success continuation; with `wait`
unset the model is added immediately, before the save resolves; and
`create` with attributes failing validation returns a falsy result
(`none`) with no mutation and no event. -/
theorem C8_create_spec (c : Collection) (item : AddItem) (options : CreateOptions) :
    (Collection._prepareModel item = none → c.create item options = .ok (none, c, []))
    ∧ (∀ m, Collection._prepareModel item = some m → options.wait = true →
        c.create item options = .ok (some m, c, []))
    ∧ (∀ m c' evs, Collection._prepareModel item = some m → options.wait = false →
        c.add [AddItem.obj m] ⟨none, options.silent⟩ = .ok (c', evs) →
        c.create item options = .ok (some m, c', evs))
    ∧ (∀ cs m c' evs, options.wait = true →
        cs.add [AddItem.obj m] ⟨none, options.silent⟩ = .ok (c', evs) →
        Collection.createSuccess cs m options =
          .ok (c', evs ++ if options.success then [] else [Event.sync m])) := by
  refine ⟨?_, ?_, ?_, ?_⟩
  · intro h
    unfold Collection.create
    rw [h]
  · intro m hm hw
    unfold Collection.create
    rw [hm]
    simp only [hw, if_true]
  · intro m c' evs hm hw hadd
    unfold Collection.create
    rw [hm]
    simp only [hw, if_false, Bool.false_eq_true, hadd]
  · intro cs m c' evs hw hadd
    unfold Collection.createSuccess
    simp only [hw, if_true, hadd]

theorem C8_create_spec_witness :
    (⟨[], 0, [], [], none, []⟩ : Collection).create (AddItem.obj ⟨"z", none, []⟩)
        ⟨true, false, false⟩
      = .ok (some ⟨"z", none, []⟩, ⟨[], 0, [], [], none, []⟩, []) :=
  (C8_create_spec _ _ _).2.1 ⟨"z", none, []⟩ rfl rfl

/-- Claim C9: on every collection with no comparator configured, `sort`
fails with the no-comparator error; the check precedes every write, so the
collection is untouched (the embedded `sort` produces the error and no
successor state). -/
theorem C9_sort_no_comparator (c : Collection) (options : SilentFlag)
    (h : c.comparator = none) : c.sort options = .error .noComparator :=
  sort_none options h

theorem C9_sort_no_comparator_witness :
    (⟨[], 0, [], [], none, []⟩ : Collection).sort ⟨false⟩ = .error .noComparator :=
  C9_sort_no_comparator _ ⟨false⟩ rfl

/-- Claim C10: constructing a collection with an initial list of models
populates `models`/`length`/`_byId`/`_byCid` via a silent reset: the
constructor emits no event at all (the result's event list is empty), and
the members are indexed and subscribed. -/
theorem C10_construct (items : List AddItem) (ms : List PModel)
    (cmp : Option Comparator)
    (hprep : items.map Collection._prepareModel = ms.map some)
    (hnd : (ms.map PModel.cid).Nodup)
    (hpw : BatchIdsOk ms) :
    ∃ c', Collection.construct (some items) cmp = .ok (c', [])
      ∧ c'.models.Perm ms
      ∧ c'.length = (ms.length : Int)
      ∧ (∀ m ∈ ms, alookup m.cid c'._byCid = some m)
      ∧ (∀ m ∈ ms, idTruthy m.id = true → c'.get (.str (jsIdKey m.id)) = some m)
      ∧ (∀ s, s ∈ c'.subscribed ↔ s ∈ ms.map PModel.cid)
      ∧ WF c' := by
  obtain ⟨c', heq, hperm, hlen, hsubs, hbcid, hbyid, hget, hwf⟩ :=
    reset_spec (c := ⟨[], 0, [], [], cmp, []⟩) ⟨true⟩ hprep hnd hpw
  refine ⟨c', ?_, hperm, hlen, hbcid, hget, ?_, hwf⟩
  · rw [construct_some_eq]
    exact heq
  · intro s
    rw [hsubs s]
    simp

theorem C10_construct_witness :
    ∃ c', Collection.construct
        (some [AddItem.obj ⟨"m1", some "i1", []⟩]) none = .ok (c', [])
      ∧ c'.length = ((1 : Nat) : Int) :=
  match C10_construct [AddItem.obj ⟨"m1", some "i1", []⟩] [⟨"m1", some "i1", []⟩]
      none rfl (by decide) (by decide) with
  | ⟨c', heq, _, hlen, _, _, _, _⟩ => ⟨c', heq, hlen⟩

end Claims

end ParseBone
